import Mathlib

/-!
Verification of the node-watch controller (`src/main.go`) against its
specification.  The program mirrors a remote collection of node records
through a list-then-watch protocol, keeps a local identity-keyed cache,
and logs one line per added/updated/deleted notification.

The controller code (`newController`, `controller.Run`, `main`) is embedded
from `src/main.go`.  The mirror/cache semantics live in the client library,
whose code is not part of the repository, so those operations are modelled
from the spec (each such definition says so in its doc comment).
-/

/-- One observed record: a stable identity (the node's name key) and the
opaque resource version assigned by the store.  The payload is opaque to
the mirror and is not represented. -/
structure NodeRec where
  identity : String
  resourceVersion : String
deriving DecidableEq, Repr

/-- An incremental watch event, carrying the affected record. -/
inductive WatchEvent where
  | add (r : NodeRec)
  | update (r : NodeRec)
  | delete (r : NodeRec)
deriving DecidableEq, Repr

/-- Modelled from the spec: the mirror's point-in-time read by identity
(the client library's identity-keyed store is not in the repository).
Returns the first record whose identity matches. -/
def lookupId (m : List NodeRec) (k : String) : Option NodeRec :=
  match m with
  | [] => none
  | r :: rest => if r.identity = k then some r else lookupId rest k

/-- Modelled from the spec: whether the mirror holds a record for `k`. -/
def containsId (m : List NodeRec) (k : String) : Bool :=
  match m with
  | [] => false
  | r :: rest => r.identity = k || containsId rest k

/-- Modelled from the spec: insert-or-replace by identity ("adds
insert-or-replace, updates replace"). -/
def insertOrReplace (m : List NodeRec) (r : NodeRec) : List NodeRec :=
  if containsId m r.identity then
    m.map (fun x => if x.identity = r.identity then r else x)
  else m ++ [r]

/-- Modelled from the spec: delete removes by identity regardless of the
version carried on the event. -/
def eraseId (m : List NodeRec) (k : String) : List NodeRec :=
  match m with
  | [] => []
  | x :: rest => if x.identity = k then eraseId rest k else x :: eraseId rest k

/-- Modelled from the spec: the mirror mutation performed by one event. -/
def applyEvent (m : List NodeRec) (e : WatchEvent) : List NodeRec :=
  match e with
  | .add r => insertOrReplace m r
  | .update r => insertOrReplace m r
  | .delete r => eraseId m r.identity

/-- Modelled from the spec: replay a finite event sequence. -/
def applyEvents (m : List NodeRec) (es : List WatchEvent) : List NodeRec :=
  es.foldl applyEvent m

/-- Modelled from the spec: the initial bulk list populates the mirror. -/
def initMirror (init : List NodeRec) : List NodeRec :=
  init.foldl insertOrReplace []

/-- Stated from the spec's words, for comparison with the mirror: the
per-identity effect of one event on a finite map (adds insert-or-replace,
updates replace, deletes remove). -/
def specStep (f : String → Option NodeRec) (e : WatchEvent) : String → Option NodeRec :=
  fun k =>
    match e with
    | .add r => if r.identity = k then some r else f k
    | .update r => if r.identity = k then some r else f k
    | .delete r => if r.identity = k then none else f k

/-- Stated from the spec's words: the map holding the last listed record
per identity. -/
def specInitMap (init : List NodeRec) : String → Option NodeRec :=
  init.foldl (fun f r => fun k => if r.identity = k then some r else f k) (fun _ => none)

/-- Stated from the spec's words: the last-state-wins projection of the
event log per identity, starting from the initial list. -/
def specProjection (init : List NodeRec) (es : List WatchEvent) : String → Option NodeRec :=
  es.foldl specStep (specInitMap init)

theorem lookupId_append (m m2 : List NodeRec) (k : String) :
    lookupId (m ++ m2) k =
      match lookupId m k with
      | some r => some r
      | none => lookupId m2 k := by
  induction m with
  | nil => simp [lookupId]
  | cons x rest ih =>
    by_cases h : x.identity = k <;> simp [lookupId, h, ih]

theorem containsId_false_lookupId (m : List NodeRec) (k : String)
    (h : containsId m k = false) : lookupId m k = none := by
  induction m with
  | nil => rfl
  | cons x rest ih =>
    simp [containsId, Bool.or_eq_false_iff] at h
    simp [lookupId, h.1, ih h.2]

theorem lookupId_map_replace_ne (m : List NodeRec) (r : NodeRec) (k : String)
    (h : r.identity ≠ k) :
    lookupId (m.map (fun x => if x.identity = r.identity then r else x)) k =
      lookupId m k := by
  induction m with
  | nil => rfl
  | cons x rest ih =>
    by_cases hx : x.identity = r.identity
    · simp [lookupId, hx, h, ih, hx.symm ▸ h]
    · simp [lookupId, hx, ih]

theorem lookupId_map_replace_eq (m : List NodeRec) (r : NodeRec)
    (hc : containsId m r.identity = true) :
    lookupId (m.map (fun x => if x.identity = r.identity then r else x)) r.identity =
      some r := by
  induction m with
  | nil => simp [containsId] at hc
  | cons x rest ih =>
    by_cases hx : x.identity = r.identity
    · simp [lookupId, hx]
    · simp [containsId, hx] at hc
      simp [lookupId, hx, ih hc]

theorem lookupId_insertOrReplace (m : List NodeRec) (r : NodeRec) (k : String) :
    lookupId (insertOrReplace m r) k =
      if r.identity = k then some r else lookupId m k := by
  unfold insertOrReplace
  by_cases hc : containsId m r.identity
  · simp only [hc, if_true]
    by_cases hk : r.identity = k
    · subst hk
      simp [lookupId_map_replace_eq m r hc]
    · simp [hk, lookupId_map_replace_ne m r k hk]
  · simp only [Bool.not_eq_true] at hc
    simp only [hc, Bool.false_eq_true, if_false]
    rw [lookupId_append]
    have hnone := containsId_false_lookupId m r.identity hc
    by_cases hk : r.identity = k
    · subst hk
      simp [hnone, lookupId]
    · cases hm : lookupId m k with
      | some v => simp [hm, hk]
      | none => simp [hm, lookupId, hk]

theorem lookupId_eraseId (m : List NodeRec) (k0 k : String) :
    lookupId (eraseId m k0) k = if k0 = k then none else lookupId m k := by
  induction m with
  | nil => simp [eraseId, lookupId]
  | cons x rest ih =>
    simp only [eraseId]
    by_cases hx : x.identity = k0
    · rw [if_pos hx, ih]
      by_cases hk : k0 = k
      · simp [hk]
      · have hxk : x.identity ≠ k := fun h => hk (hx.symm.trans h)
        simp [hk, lookupId, hxk]
    · rw [if_neg hx]
      by_cases hxk : x.identity = k
      · have hk : k0 ≠ k := fun h => hx (hxk.trans h.symm)
        simp [lookupId, hxk, hk]
      · simp [lookupId, hxk, ih]

theorem lookupId_applyEvent (m : List NodeRec) (f : String → Option NodeRec)
    (e : WatchEvent) (hf : ∀ k, lookupId m k = f k) :
    ∀ k, lookupId (applyEvent m e) k = specStep f e k := by
  intro k
  cases e with
  | add r => simp [applyEvent, specStep, lookupId_insertOrReplace, hf k]
  | update r => simp [applyEvent, specStep, lookupId_insertOrReplace, hf k]
  | delete r => simp [applyEvent, specStep, lookupId_eraseId, hf k]

theorem lookupId_applyEvents (es : List WatchEvent) :
    ∀ (m : List NodeRec) (f : String → Option NodeRec),
      (∀ k, lookupId m k = f k) →
      ∀ k, lookupId (applyEvents m es) k = (es.foldl specStep f) k := by
  induction es with
  | nil => intro m f hf k; simpa [applyEvents] using hf k
  | cons e rest ih =>
    intro m f hf k
    simpa [applyEvents, List.foldl_cons] using
      ih (applyEvent m e) (specStep f e) (lookupId_applyEvent m f e hf) k

theorem lookupId_initMirror (init : List NodeRec) :
    ∀ k, lookupId (initMirror init) k = specInitMap init k := by
  suffices h : ∀ (init : List NodeRec) (m : List NodeRec) (f : String → Option NodeRec),
      (∀ k, lookupId m k = f k) →
      ∀ k, lookupId (init.foldl insertOrReplace m) k =
        (init.foldl (fun f r => fun k => if r.identity = k then some r else f k) f) k by
    exact h init [] (fun _ => none) (fun _ => rfl)
  intro init
  induction init with
  | nil => intro m f hf k; simpa using hf k
  | cons r rest ih =>
    intro m f hf k
    refine ih (insertOrReplace m r) _ ?_ k
    intro k2
    simp [lookupId_insertOrReplace, hf k2]

theorem ids_map_replace (m : List NodeRec) (r : NodeRec) :
    ((m.map (fun x => if x.identity = r.identity then r else x)).map NodeRec.identity) =
      m.map NodeRec.identity := by
  induction m with
  | nil => rfl
  | cons x rest ih =>
    by_cases hx : x.identity = r.identity
    · simp [hx, ih]
    · simp [hx, ih]

theorem containsId_false_not_mem (m : List NodeRec) (k : String)
    (h : containsId m k = false) : k ∉ m.map NodeRec.identity := by
  induction m with
  | nil => simp
  | cons x rest ih =>
    simp only [containsId, Bool.or_eq_false_iff] at h
    simp only [List.map_cons, List.mem_cons]
    rintro (hk | hk)
    · exact absurd (decide_eq_true (hk.symm)) (by simpa using h.1)
    · exact ih h.2 hk

theorem nodup_insertOrReplace (m : List NodeRec) (r : NodeRec)
    (h : (m.map NodeRec.identity).Nodup) :
    ((insertOrReplace m r).map NodeRec.identity).Nodup := by
  unfold insertOrReplace
  by_cases hc : containsId m r.identity
  · simpa [hc, ids_map_replace m r] using h
  · simp only [Bool.not_eq_true] at hc
    simp only [hc, Bool.false_eq_true, if_false, List.map_append, List.map_cons,
      List.map_nil]
    rw [List.nodup_append]
    exact ⟨h, List.nodup_singleton _, by
      simpa [List.disjoint_singleton] using containsId_false_not_mem m r.identity hc⟩

theorem mem_of_mem_eraseId (m : List NodeRec) (k : String) (r : NodeRec)
    (h : r ∈ eraseId m k) : r ∈ m := by
  induction m with
  | nil => simpa [eraseId] using h
  | cons x rest ih =>
    simp only [eraseId] at h
    by_cases hx : x.identity = k
    · rw [if_pos hx] at h
      exact List.mem_cons_of_mem x (ih h)
    · rw [if_neg hx] at h
      rcases List.mem_cons.mp h with h | h
      · exact h ▸ List.mem_cons_self x rest
      · exact List.mem_cons_of_mem x (ih h)

theorem nodup_eraseId (m : List NodeRec) (k : String)
    (h : (m.map NodeRec.identity).Nodup) :
    ((eraseId m k).map NodeRec.identity).Nodup := by
  induction m with
  | nil => simpa [eraseId] using h
  | cons x rest ih =>
    simp only [List.map_cons, List.nodup_cons] at h
    simp only [eraseId]
    by_cases hx : x.identity = k
    · rw [if_pos hx]
      exact ih h.2
    · rw [if_neg hx]
      simp only [List.map_cons, List.nodup_cons]
      refine ⟨fun hmem => ?_, ih h.2⟩
      obtain ⟨y, hy, hyid⟩ := List.mem_map.mp hmem
      exact h.1 (List.mem_map.mpr ⟨y, mem_of_mem_eraseId rest k y hy, hyid⟩)

theorem nodup_applyEvent (m : List NodeRec) (e : WatchEvent)
    (h : (m.map NodeRec.identity).Nodup) :
    ((applyEvent m e).map NodeRec.identity).Nodup := by
  cases e with
  | add r => exact nodup_insertOrReplace m r h
  | update r => exact nodup_insertOrReplace m r h
  | delete r => exact nodup_eraseId m r.identity h

theorem nodup_applyEvents (es : List WatchEvent) :
    ∀ m : List NodeRec, (m.map NodeRec.identity).Nodup →
      ((applyEvents m es).map NodeRec.identity).Nodup := by
  induction es with
  | nil => intro m h; simpa [applyEvents] using h
  | cons e rest ih =>
    intro m h
    simpa [applyEvents, List.foldl_cons] using ih (applyEvent m e) (nodup_applyEvent m e h)

theorem nodup_initMirror (init : List NodeRec) :
    ((initMirror init).map NodeRec.identity).Nodup := by
  suffices h : ∀ (init m : List NodeRec), (m.map NodeRec.identity).Nodup →
      ((init.foldl insertOrReplace m).map NodeRec.identity).Nodup by
    exact h init [] (by simp)
  intro init
  induction init with
  | nil => intro m h; simpa using h
  | cons r rest ih =>
    intro m h
    simpa [List.foldl_cons] using ih (insertOrReplace m r) (nodup_insertOrReplace m r h)

theorem lookupId_eq_some_of_mem (m : List NodeRec) (r : NodeRec)
    (hnd : (m.map NodeRec.identity).Nodup) (hmem : r ∈ m) :
    lookupId m r.identity = some r := by
  induction m with
  | nil => simp at hmem
  | cons x rest ih =>
    simp only [List.map_cons, List.nodup_cons] at hnd
    rcases List.mem_cons.mp hmem with h | h
    · subst h
      simp [lookupId]
    · by_cases hx : x.identity = r.identity
      · exact absurd (hx ▸ List.mem_map.mpr ⟨r, h, rfl⟩) hnd.1
      · simp only [lookupId, hx, if_false]
        exact ih hnd.2 h

theorem mem_of_lookupId (m : List NodeRec) (k : String) (r : NodeRec)
    (h : lookupId m k = some r) : r ∈ m ∧ r.identity = k := by
  induction m with
  | nil => simp [lookupId] at h
  | cons x rest ih =>
    by_cases hx : x.identity = k
    · simp only [lookupId, hx, if_true, Option.some_inj] at h
      subst h
      exact ⟨List.mem_cons_self x rest, hx⟩
    · simp only [lookupId, hx, if_false] at h
      obtain ⟨hm, hk⟩ := ih h
      exact ⟨List.mem_cons_of_mem x hm, hk⟩

/-- C1: for every initial list and finite sequence of Add/Update/Delete
events, the mirror after replay is exactly the last-state-wins projection
of the event log per identity: lookups agree with the per-identity fold of
the events, the mirror holds at most one record per identity, and a record
is in `List()` precisely when the projection maps its identity to it. -/
theorem mirror_replay_is_last_state_projection (init : List NodeRec) (es : List WatchEvent) :
    (∀ k, lookupId (applyEvents (initMirror init) es) k = specProjection init es k) ∧
    ((applyEvents (initMirror init) es).map NodeRec.identity).Nodup ∧
    (∀ r : NodeRec, r ∈ applyEvents (initMirror init) es ↔
      specProjection init es r.identity = some r) := by
  have h1 : ∀ k, lookupId (applyEvents (initMirror init) es) k = specProjection init es k :=
    lookupId_applyEvents es (initMirror init) (specInitMap init) (lookupId_initMirror init)
  have h2 : ((applyEvents (initMirror init) es).map NodeRec.identity).Nodup :=
    nodup_applyEvents es (initMirror init) (nodup_initMirror init)
  refine ⟨h1, h2, fun r => ⟨fun hmem => ?_, fun hproj => ?_⟩⟩
  · rw [← h1 r.identity]
    exact lookupId_eq_some_of_mem _ r h2 hmem
  · have := (h1 r.identity).trans hproj
    exact (mem_of_lookupId _ r.identity r this).1

/-- A notification describing one mirror mutation: Added, Updated (with old
and new record) or Deleted. -/
inductive Notif where
  | added (r : NodeRec)
  | updated (oldR newR : NodeRec)
  | deleted (r : NodeRec)
deriving DecidableEq, Repr

/-- Modelled from the spec: apply one watch event and produce the
notifications dispatched for it.  A redelivered add for an already-present
identity is treated as an update; a delete notifies with the record the
mirror held. -/
def applyEventN (m : List NodeRec) (e : WatchEvent) : List NodeRec × List Notif :=
  match e with
  | .add r =>
    match lookupId m r.identity with
    | some oldR => (insertOrReplace m r, [.updated oldR r])
    | none => (insertOrReplace m r, [.added r])
  | .update r =>
    match lookupId m r.identity with
    | some oldR => (insertOrReplace m r, [.updated oldR r])
    | none => (insertOrReplace m r, [.added r])
  | .delete r =>
    match lookupId m r.identity with
    | some oldR => (eraseId m r.identity, [.deleted oldR])
    | none => (eraseId m r.identity, [])

/-- Modelled from the spec: replay a watch event sequence, collecting the
dispatched notifications in order.  The initial list populates the mirror
without dispatching any notification. -/
def applyEventsN (m : List NodeRec) (es : List WatchEvent) : List NodeRec × List Notif :=
  es.foldl (fun acc e =>
    let p := applyEventN acc.1 e
    (p.1, acc.2 ++ p.2)) (m, [])

theorem map_replace_self (m : List NodeRec) (r : NodeRec)
    (hnd : (m.map NodeRec.identity).Nodup)
    (h : lookupId m r.identity = some r) :
    m.map (fun x => if x.identity = r.identity then r else x) = m := by
  induction m with
  | nil => rfl
  | cons x rest ih =>
    simp only [List.map_cons, List.nodup_cons] at hnd
    by_cases hx : x.identity = r.identity
    · simp only [lookupId, hx, if_true, Option.some_inj] at h
      subst h
      simp only [List.map_cons, hx, if_true]
      have hrest : ∀ y ∈ rest, (if y.identity = x.identity then x else y) = y := by
        intro y hy
        by_cases hyx : y.identity = x.identity
        · exact absurd (hyx ▸ List.mem_map.mpr ⟨y, hy, rfl⟩) hnd.1
        · simp [hyx]
      rw [List.map_congr_left hrest]
      simp
    · simp only [lookupId, hx, if_false] at h
      simp only [List.map_cons, hx, if_false]
      rw [ih hnd.2 h]

theorem containsId_true_of_lookupId (m : List NodeRec) (k : String) (r : NodeRec)
    (h : lookupId m k = some r) : containsId m k = true := by
  induction m with
  | nil => simp [lookupId] at h
  | cons x rest ih =>
    by_cases hx : x.identity = k
    · simp [containsId, hx]
    · simp only [lookupId, hx, if_false] at h
      simp [containsId, hx, ih h]

/-- C7: if the mirror already holds record `r` for its identity, redelivering
the Add event for `r` leaves the mirror contents unchanged (no duplicate
entry) and dispatches exactly one Updated-equivalent notification, so
applying the same Add twice equals applying it once up to that one extra
notification. -/
theorem add_redelivery_idempotent (m : List NodeRec) (r : NodeRec)
    (hnd : (m.map NodeRec.identity).Nodup)
    (h : lookupId m r.identity = some r) :
    applyEventN m (.add r) = (m, [Notif.updated r r]) := by
  simp only [applyEventN, h]
  unfold insertOrReplace
  rw [containsId_true_of_lookupId m r.identity r h]
  simp only [if_true]
  rw [map_replace_self m r hnd h]

/-- Witness for C7 at a concrete mirror: redelivering `Add ⟨node-a, v1⟩` to
the one-record mirror holding it changes nothing and emits one Updated
notification. -/
theorem add_redelivery_idempotent_witness :
    applyEventN [⟨"node-a", "v1"⟩] (.add ⟨"node-a", "v1"⟩) =
      ([⟨"node-a", "v1"⟩], [Notif.updated ⟨"node-a", "v1"⟩ ⟨"node-a", "v1"⟩]) :=
  add_redelivery_idempotent [⟨"node-a", "v1"⟩] ⟨"node-a", "v1"⟩ (by decide) (by decide)

/-- The end-to-end scenario's initial list: one record `node-a` at `v1`. -/
def scenarioInit : List NodeRec := [⟨"node-a", "v1"⟩]

/-- The end-to-end scenario's watch events: update `node-a` to `v2`, then
delete it. -/
def scenarioEvents : List WatchEvent :=
  [.update ⟨"node-a", "v2"⟩, .delete ⟨"node-a", "v2"⟩]

/-- C4: in the end-to-end scenario (list returns `node-a` at `v1`, watch then
emits Update to `v2` and Delete), the initial list alone dispatches no
notification, replay dispatches exactly one Updated notification carrying
old version `v1` and new version `v2` followed by exactly one Deleted
notification carrying `v2`, and the final mirror contents are empty. -/
theorem scenario_update_then_delete :
    (applyEventsN (initMirror scenarioInit) []).2 = [] ∧
    applyEventsN (initMirror scenarioInit) scenarioEvents =
      ([], [Notif.updated ⟨"node-a", "v1"⟩ ⟨"node-a", "v2"⟩,
            Notif.deleted ⟨"node-a", "v2"⟩]) := by
  constructor
  · rfl
  · rfl

/-- Controller phases of `controller.Run` (src/main.go lines 54-65). -/
inductive RunPhase where
  | waitingForSync | running | stoppedErr | stoppedOk
deriving DecidableEq, Repr

/-- What the environment can do while Run executes: the cache-sync wait
returns (with its boolean result), or the stop channel is closed. -/
inductive RunEvent where
  | syncWaitReturned (ok : Bool)
  | stopFired
deriving DecidableEq, Repr

/-- State of one Run call: its phase plus whether the stop channel has been
closed already (a receive from a closed channel returns immediately). -/
structure RunState where
  phase : RunPhase
  stopClosed : Bool
deriving DecidableEq, Repr

/-- Step machine of `controller.Run` (src/main.go lines 54-65): Run blocks
in WaitForCacheSync first; a false wait result moves straight to the error
return ("failed to wait for caches to sync"); a true result enters the
running state, or returns success at once when stop is already closed;
from the running state the blocked receive on stopCh returns success when
the stop signal fires. -/
def runStep (s : RunState) (e : RunEvent) : RunState :=
  match e with
  | .stopFired =>
    if s.phase = RunPhase.running then ⟨RunPhase.stoppedOk, true⟩
    else ⟨s.phase, true⟩
  | .syncWaitReturned ok =>
    match s.phase with
    | RunPhase.waitingForSync =>
      if ok then
        if s.stopClosed then ⟨RunPhase.stoppedOk, s.stopClosed⟩
        else ⟨RunPhase.running, s.stopClosed⟩
      else ⟨RunPhase.stoppedErr, s.stopClosed⟩
    | _ => s

/-- Run starts waiting on the sync barrier, stop not yet fired. -/
def runInit : RunState := ⟨RunPhase.waitingForSync, false⟩

/-- The state after Run has observed a finite sequence of events. -/
def runExec (es : List RunEvent) : RunState := es.foldl runStep runInit

/-- Run's return value in a given state: an error after a failed barrier
wait, success after the stop signal, nothing while still blocked. -/
def runResult (s : RunState) : Option (Except String Unit) :=
  match s.phase with
  | RunPhase.stoppedErr => some (Except.error "failed to wait for caches to sync")
  | RunPhase.stoppedOk => some (Except.ok ())
  | _ => none

theorem runStep_err_abs (e : RunEvent) (s : RunState)
    (h : s.phase = RunPhase.stoppedErr) : (runStep s e).phase = RunPhase.stoppedErr := by
  cases e with
  | stopFired => simp [runStep, h]
  | syncWaitReturned ok => simp [runStep, h]

theorem runStep_ok_abs (e : RunEvent) (s : RunState)
    (h : s.phase = RunPhase.stoppedOk) : (runStep s e).phase = RunPhase.stoppedOk := by
  cases e with
  | stopFired => simp [runStep, h]
  | syncWaitReturned ok => simp [runStep, h]

theorem foldl_err_abs (es : List RunEvent) :
    ∀ s : RunState, s.phase = RunPhase.stoppedErr →
      (es.foldl runStep s).phase = RunPhase.stoppedErr := by
  induction es with
  | nil => intro s h; simpa using h
  | cons e rest ih =>
    intro s h
    simpa [List.foldl_cons] using ih (runStep s e) (runStep_err_abs e s h)

theorem foldl_ok_abs (es : List RunEvent) :
    ∀ s : RunState, s.phase = RunPhase.stoppedOk →
      (es.foldl runStep s).phase = RunPhase.stoppedOk := by
  induction es with
  | nil => intro s h; simpa using h
  | cons e rest ih =>
    intro s h
    simpa [List.foldl_cons] using ih (runStep s e) (runStep_ok_abs e s h)

theorem runStep_running_fwd (e : RunEvent) (s : RunState)
    (h : s.phase = RunPhase.running) :
    (runStep s e).phase = RunPhase.running ∨ (runStep s e).phase = RunPhase.stoppedOk := by
  cases e with
  | stopFired => right; simp [runStep, h]
  | syncWaitReturned ok => left; simp [runStep, h]

theorem foldl_running_fwd (es : List RunEvent) :
    ∀ s : RunState, s.phase = RunPhase.running ∨ s.phase = RunPhase.stoppedOk →
      (es.foldl runStep s).phase = RunPhase.running ∨
        (es.foldl runStep s).phase = RunPhase.stoppedOk := by
  induction es with
  | nil => intro s h; simpa using h
  | cons e rest ih =>
    intro s h
    rcases h with h | h
    · simpa [List.foldl_cons] using ih (runStep s e) (runStep_running_fwd e s h)
    · simpa [List.foldl_cons] using ih (runStep s e) (Or.inr (runStep_ok_abs e s h))

theorem foldl_no_stop_no_ok (es : List RunEvent) :
    ∀ s : RunState, RunEvent.stopFired ∉ es → s.phase ≠ RunPhase.stoppedOk →
      s.stopClosed = false → (es.foldl runStep s).phase ≠ RunPhase.stoppedOk := by
  induction es with
  | nil => intro s _ h _; simpa using h
  | cons e rest ih =>
    intro s hmem h hsc
    have hrest : RunEvent.stopFired ∉ rest := fun hr => hmem (List.mem_cons_of_mem e hr)
    cases e with
    | stopFired => exact absurd (List.mem_cons_self _ _) hmem
    | syncWaitReturned ok =>
      refine ih (runStep s (.syncWaitReturned ok)) hrest ?_ ?_
      · cases hp : s.phase with
        | waitingForSync =>
          cases ok with
          | true => simp [runStep, hp, hsc]
          | false => simp [runStep, hp]
        | running => simp [runStep, hp]
        | stoppedErr => simp [runStep, hp]
        | stoppedOk => exact absurd hp h
      · cases hp : s.phase with
        | waitingForSync =>
          cases ok with
          | true => simp [runStep, hp, hsc]
          | false => simp [runStep, hp, hsc]
        | running => simp [runStep, hp, hsc]
        | stoppedErr => simp [runStep, hp, hsc]
        | stoppedOk => exact absurd hp h

theorem foldl_no_synctrue_no_ok (es : List RunEvent) :
    ∀ s : RunState, RunEvent.syncWaitReturned true ∉ es →
      (s.phase = RunPhase.waitingForSync ∨ s.phase = RunPhase.stoppedErr) →
      (es.foldl runStep s).phase ≠ RunPhase.stoppedOk := by
  induction es with
  | nil => intro s _ h; rcases h with h | h <;> simp [h]
  | cons e rest ih =>
    intro s hmem h
    have hrest : RunEvent.syncWaitReturned true ∉ rest :=
      fun hr => hmem (List.mem_cons_of_mem e hr)
    refine ih (runStep s e) hrest ?_
    cases e with
    | stopFired =>
      rcases h with h | h
      · left; simp [runStep, h]
      · right; simp [runStep, h]
    | syncWaitReturned ok =>
      cases ok with
      | true => exact absurd (List.mem_cons_self _ _) hmem
      | false =>
        rcases h with h | h
        · right; simp [runStep, h]
        · right; simp [runStep, h]

theorem foldl_waiting_no_sync (as : List RunEvent) :
    ∀ s : RunState, (∀ b, RunEvent.syncWaitReturned b ∉ as) →
      s.phase = RunPhase.waitingForSync →
      (as.foldl runStep s).phase = RunPhase.waitingForSync := by
  induction as with
  | nil => intro s _ h; simpa using h
  | cons e rest ih =>
    intro s hmem h
    have hrest : ∀ b, RunEvent.syncWaitReturned b ∉ rest :=
      fun b hr => hmem b (List.mem_cons_of_mem e hr)
    cases e with
    | stopFired =>
      refine ih (runStep s .stopFired) hrest ?_
      simp [runStep, h]
    | syncWaitReturned b => exact absurd (List.mem_cons_self _ _) (hmem b)

theorem runStep_stop_mono (e : RunEvent) (s : RunState)
    (h : s.stopClosed = true) : (runStep s e).stopClosed = true := by
  cases e with
  | stopFired => simp [runStep]; split <;> rfl
  | syncWaitReturned ok =>
    cases hp : s.phase with
    | waitingForSync =>
      cases ok with
      | true => simp [runStep, hp, h]
      | false => simp [runStep, hp, h]
    | running => simp [runStep, hp, h]
    | stoppedErr => simp [runStep, hp, h]
    | stoppedOk => simp [runStep, hp, h]

theorem foldl_stop_mono (es : List RunEvent) :
    ∀ s : RunState, s.stopClosed = true → (es.foldl runStep s).stopClosed = true := by
  induction es with
  | nil => intro s h; simpa using h
  | cons e rest ih =>
    intro s h
    simpa [List.foldl_cons] using ih (runStep s e) (runStep_stop_mono e s h)

theorem foldl_stop_mem (es : List RunEvent) :
    ∀ s : RunState, RunEvent.stopFired ∈ es → (es.foldl runStep s).stopClosed = true := by
  induction es with
  | nil => intro s h; simp at h
  | cons e rest ih =>
    intro s h
    rcases List.mem_cons.mp h with h | h
    · subst h
      refine foldl_stop_mono rest (runStep s .stopFired) ?_
      simp [runStep]; split <;> rfl
    · exact ih (runStep s e) h

theorem foldl_run_to_ok (es : List RunEvent) :
    ∀ s : RunState, s.phase = RunPhase.running → RunEvent.stopFired ∈ es →
      (es.foldl runStep s).phase = RunPhase.stoppedOk := by
  induction es with
  | nil => intro s _ h; simp at h
  | cons e rest ih =>
    intro s hrun h
    cases e with
    | stopFired =>
      refine foldl_ok_abs rest (runStep s .stopFired) ?_
      simp [runStep, hrun]
    | syncWaitReturned ok =>
      have hs : runStep s (.syncWaitReturned ok) = s := by
        simp [runStep, hrun]
      rcases List.mem_cons.mp h with h | h
      · exact absurd h.symm (by simp)
      · rw [List.foldl_cons, hs]
        exact ih s hrun h

theorem runResult_ok_iff (s : RunState) :
    runResult s = some (Except.ok ()) ↔ s.phase = RunPhase.stoppedOk := by
  cases hp : s.phase <;> simp [runResult, hp]

theorem runResult_err_iff (s : RunState) :
    runResult s = some (Except.error "failed to wait for caches to sync") ↔
      s.phase = RunPhase.stoppedErr := by
  cases hp : s.phase <;> simp [runResult, hp]

/-- C2: Run first waits on the sync barrier.  A success return happens only
in executions where the stop signal fired (and the barrier wait returned
true); in every execution whose first barrier-wait result is false, Run
returns the error "failed to wait for caches to sync" and never passes
through the running state; in every execution whose first barrier-wait
result is true and where the stop signal fires, Run returns success. -/
theorem run_barrier_semantics (es : List RunEvent) :
    (runResult (runExec es) = some (Except.ok ()) →
      RunEvent.stopFired ∈ es ∧ RunEvent.syncWaitReturned true ∈ es) ∧
    (∀ as bs, es = as ++ RunEvent.syncWaitReturned false :: bs →
      (∀ b, RunEvent.syncWaitReturned b ∉ as) →
      runResult (runExec es) = some (Except.error "failed to wait for caches to sync") ∧
      ∀ pre suf, es = pre ++ suf → (runExec pre).phase ≠ RunPhase.running) ∧
    (∀ as bs, es = as ++ RunEvent.syncWaitReturned true :: bs →
      (∀ b, RunEvent.syncWaitReturned b ∉ as) →
      RunEvent.stopFired ∈ es →
      runResult (runExec es) = some (Except.ok ())) := by
  refine ⟨?_, ?_, ?_⟩
  · intro h
    have hok : (runExec es).phase = RunPhase.stoppedOk := (runResult_ok_iff _).mp h
    constructor
    · by_contra hnot
      exact foldl_no_stop_no_ok es runInit hnot (by simp [runInit]) rfl hok
    · by_contra hnot
      exact foldl_no_synctrue_no_ok es runInit hnot (Or.inl rfl) hok
  · intro as bs heq hnosync
    have hpre : (as.foldl runStep runInit).phase = RunPhase.waitingForSync :=
      foldl_waiting_no_sync as runInit hnosync rfl
    have hstep : (runStep (as.foldl runStep runInit) (.syncWaitReturned false)).phase =
        RunPhase.stoppedErr := by
      simp [runStep, hpre]
    have herr : (runExec es).phase = RunPhase.stoppedErr := by
      rw [heq]
      unfold runExec
      rw [List.foldl_append, List.foldl_cons]
      exact foldl_err_abs bs _ hstep
    refine ⟨(runResult_err_iff _).mpr herr, ?_⟩
    intro pre suf hpresuf hrun
    have : (runExec es).phase = RunPhase.running ∨
        (runExec es).phase = RunPhase.stoppedOk := by
      rw [hpresuf]
      unfold runExec
      rw [List.foldl_append]
      exact foldl_running_fwd suf (runExec pre) (Or.inl hrun)
    rcases this with h | h <;> rw [herr] at h <;> exact RunPhase.noConfusion h
  · intro as bs heq hnosync hstop
    have hpre : (as.foldl runStep runInit).phase = RunPhase.waitingForSync :=
      foldl_waiting_no_sync as runInit hnosync rfl
    refine (runResult_ok_iff _).mpr ?_
    rw [heq]
    unfold runExec
    rw [List.foldl_append, List.foldl_cons]
    cases hsc : (as.foldl runStep runInit).stopClosed with
    | true =>
      have hstep : (runStep (as.foldl runStep runInit) (.syncWaitReturned true)).phase =
          RunPhase.stoppedOk := by
        simp [runStep, hpre, hsc]
      exact foldl_ok_abs bs _ hstep
    | false =>
      have hstep : (runStep (as.foldl runStep runInit) (.syncWaitReturned true)).phase =
          RunPhase.running := by
        simp [runStep, hpre, hsc]
      have hstopbs : RunEvent.stopFired ∈ bs := by
        rw [heq] at hstop
        rcases List.mem_append.mp hstop with h | h
        · exact absurd (foldl_stop_mem as runInit h) (by simp [hsc])
        · rcases List.mem_cons.mp h with h | h
          · exact absurd h (by simp)
          · exact h
      exact foldl_run_to_ok bs _ hstep hstopbs

/-- Modelled from the spec: the mirror's lifecycle states.  `created` is the
not-yet-started state the spec calls the first one, `syncing b` records
whether the initial bulk list has been fully applied, `synced` is terminal
readiness. -/
inductive MirrorState where
  | created | syncing (listApplied : Bool) | synced
deriving DecidableEq, Repr

/-- Modelled from the spec: what drives the mirror lifecycle — StartSync
begins background synchronization, the initial bulk list finishes applying,
and the watch protocol delivers its boundary marker. -/
inductive SyncSignal where
  | startSync | listFullyApplied | boundaryMarker
deriving DecidableEq, Repr

/-- Modelled from the spec: one lifecycle transition.  Synced requires both
the fully-applied list and the boundary marker; every other signal leaves
the state unchanged. -/
def mirrorStep (s : MirrorState) (e : SyncSignal) : MirrorState :=
  match s, e with
  | .created, .startSync => .syncing false
  | .syncing _, .listFullyApplied => .syncing true
  | .syncing true, .boundaryMarker => .synced
  | s, _ => s

/-- Modelled from the spec: the mirror state after a signal sequence. -/
def mirrorRun (es : List SyncSignal) : MirrorState := es.foldl mirrorStep .created

/-- Position of a state along the one-directional lifecycle. -/
def mirrorRank : MirrorState → Nat
  | .created => 0
  | .syncing _ => 1
  | .synced => 2

theorem mirrorStep_rank_mono (s : MirrorState) (e : SyncSignal) :
    mirrorRank s ≤ mirrorRank (mirrorStep s e) := by
  cases s with
  | created => cases e <;> simp [mirrorStep, mirrorRank]
  | syncing b => cases e <;> cases b <;> simp [mirrorStep, mirrorRank]
  | synced => cases e <;> simp [mirrorStep, mirrorRank]

theorem mirrorStep_synced_abs (e : SyncSignal) :
    mirrorStep MirrorState.synced e = MirrorState.synced := by
  cases e <;> rfl

theorem mirror_foldl_rank_mono (es : List SyncSignal) :
    ∀ s : MirrorState, mirrorRank s ≤ mirrorRank (es.foldl mirrorStep s) := by
  induction es with
  | nil => intro s; simp
  | cons e rest ih =>
    intro s
    exact le_trans (mirrorStep_rank_mono s e) (by simpa [List.foldl_cons] using ih (mirrorStep s e))

theorem mirror_foldl_synced_abs (es : List SyncSignal) :
    ∀ s : MirrorState, s = MirrorState.synced →
      es.foldl mirrorStep s = MirrorState.synced := by
  induction es with
  | nil => intro s h; simpa using h
  | cons e rest ih =>
    intro s h
    subst h
    simpa [List.foldl_cons, mirrorStep_synced_abs] using ih _ (mirrorStep_synced_abs e)

/-- C5: the mirror lifecycle is one-directional along
created → syncing → synced and never resets: the rank never decreases over
any extension of the signal history, once Synced the mirror stays Synced
under every further signal (so Synced is entered at most once), the first
state steps only to itself or to Syncing, and Syncing steps only to Syncing
or to Synced — never back. -/
theorem mirror_lifecycle (pre suf : List SyncSignal) (e : SyncSignal) :
    mirrorRank (mirrorRun pre) ≤ mirrorRank (mirrorRun (pre ++ suf)) ∧
    (mirrorRun pre = MirrorState.synced → mirrorRun (pre ++ suf) = MirrorState.synced) ∧
    mirrorStep MirrorState.synced e = MirrorState.synced ∧
    (mirrorStep MirrorState.created e = MirrorState.created ∨
      mirrorStep MirrorState.created e = MirrorState.syncing false) ∧
    (∀ b, mirrorStep (MirrorState.syncing b) e = MirrorState.syncing b ∨
      mirrorStep (MirrorState.syncing b) e = MirrorState.syncing true ∨
      mirrorStep (MirrorState.syncing b) e = MirrorState.synced) := by
  refine ⟨?_, ?_, mirrorStep_synced_abs e, ?_, ?_⟩
  · unfold mirrorRun
    rw [List.foldl_append]
    exact mirror_foldl_rank_mono suf _
  · intro h
    unfold mirrorRun at h ⊢
    rw [List.foldl_append]
    exact mirror_foldl_synced_abs suf _ h
  · cases e <;> simp [mirrorStep]
  · intro b
    cases e <;> cases b <;> simp [mirrorStep]

/-- Modelled from the spec: the three ways the readiness barrier can end for
a caller of WaitForSync — sync completed (list fully applied and boundary
marker observed, i.e. the mirror reached Synced), cancellation fired first,
or the underlying wait failed. -/
inductive WaitOutcome where
  | syncedObserved | cancelled | waitFailed
deriving DecidableEq, Repr

/-- Modelled from the spec: WaitForSync's boolean return for each outcome. -/
def waitForSync : WaitOutcome → Bool
  | .syncedObserved => true
  | .cancelled => false
  | .waitFailed => false

/-- C3: WaitForSync returns true if and only if sync completed (the mirror
reached Synced), returns false if and only if it was cancelled or the
underlying wait failed, and there is no outcome besides these two returns. -/
theorem waitForSync_true_iff_synced (o : WaitOutcome) :
    (waitForSync o = true ↔ o = WaitOutcome.syncedObserved) ∧
    (waitForSync o = false ↔ (o = WaitOutcome.cancelled ∨ o = WaitOutcome.waitFailed)) ∧
    (waitForSync o = true ∨ waitForSync o = false) := by
  cases o <;> simp [waitForSync]

/-- Log line the add handler emits (src/main.go line 38). -/
def addedLogLine (n : NodeRec) : String :=
  "[node added] resource version: " ++ n.resourceVersion

/-- Log line the update handler emits (src/main.go line 43). -/
def updatedLogLine (o n : NodeRec) : String :=
  "[node updated] old resource version: " ++ o.resourceVersion ++
    "\tnew resource version: " ++ n.resourceVersion

/-- Log line the delete handler emits (src/main.go line 47). -/
def deletedLogLine (n : NodeRec) : String :=
  "[node deleted] resource version: " ++ n.resourceVersion

/-- Lines the registered handlers log for one notification: each handler
makes exactly one klog call (src/main.go lines 35-49). -/
def notifLogLines : Notif → List String
  | .added r => [addedLogLine r]
  | .updated o n => [updatedLogLine o n]
  | .deleted r => [deletedLogLine r]

/-- The first character list starts the second. -/
def hasPrefixL : List Char → List Char → Bool
  | [], _ => true
  | _ :: _, [] => false
  | a :: as, b :: bs => a == b && hasPrefixL as bs

/-- The first character list occurs contiguously inside the second. -/
def hasSubL (pat : List Char) : List Char → Bool
  | [] => hasPrefixL pat []
  | c :: t => hasPrefixL pat (c :: t) || hasSubL pat t

/-- String `s` contains `pat` as a contiguous substring. -/
def strContainsSub (s pat : String) : Bool := hasSubL pat.data s.data

theorem hasPrefixL_self_append (p t : List Char) : hasPrefixL p (p ++ t) = true := by
  induction p with
  | nil => rfl
  | cons a as ih => simp [hasPrefixL, ih]

theorem hasSubL_here (p v : List Char) : hasSubL p (p ++ v) = true := by
  cases p with
  | nil =>
    cases v with
    | nil => rfl
    | cons c t => simp [hasSubL, hasPrefixL]
  | cons a as =>
    rw [List.cons_append]
    simp [hasSubL, hasPrefixL, hasPrefixL_self_append as v]

theorem hasSubL_cons (p : List Char) (c : Char) (t : List Char)
    (h : hasSubL p t = true) : hasSubL p (c :: t) = true := by
  simp [hasSubL, h]

theorem hasSubL_middle (u p v : List Char) : hasSubL p (u ++ (p ++ v)) = true := by
  induction u with
  | nil => simpa using hasSubL_here p v
  | cons c t ih =>
    rw [List.cons_append]
    exact hasSubL_cons p c _ ih

theorem strContainsSub_append_right (a b : String) :
    strContainsSub (a ++ b) b = true := by
  unfold strContainsSub
  rw [String.data_append]
  simpa using hasSubL_middle a.data b.data []

theorem strContainsSub_middle (a b c : String) :
    strContainsSub (a ++ b ++ c) b = true := by
  unfold strContainsSub
  rw [String.data_append, String.data_append]
  simpa [List.append_assoc] using hasSubL_middle a.data b.data c.data

/-- C8 counterexample: at the concrete record node-a with version v1, the
added notification's single log line does not contain the resource's
identity "node-a" (it carries only the version), refuting that every such
line contains both identity and version. -/
theorem log_line_lacks_identity :
    notifLogLines (Notif.added ⟨"node-a", "v1"⟩) =
      ["[node added] resource version: v1"] ∧
    strContainsSub (addedLogLine ⟨"node-a", "v1"⟩) "node-a" = false :=
  ⟨rfl, by decide⟩

/-- C8 (amended): every Added/Updated/Deleted notification produces exactly
one structured log line, and that line contains the resource's version(s)
(for Updated both the old and the new version); it does not in general
contain the identity. -/
theorem log_lines_carry_versions (o n r : NodeRec) :
    notifLogLines (Notif.added r) = [addedLogLine r] ∧
    strContainsSub (addedLogLine r) r.resourceVersion = true ∧
    notifLogLines (Notif.updated o n) = [updatedLogLine o n] ∧
    strContainsSub (updatedLogLine o n) o.resourceVersion = true ∧
    strContainsSub (updatedLogLine o n) n.resourceVersion = true ∧
    notifLogLines (Notif.deleted r) = [deletedLogLine r] ∧
    strContainsSub (deletedLogLine r) r.resourceVersion = true := by
  refine ⟨rfl, ?_, rfl, ?_, ?_, rfl, ?_⟩
  · exact strContainsSub_append_right _ _
  · unfold updatedLogLine
    unfold strContainsSub
    simp only [String.data_append]
    simpa [List.append_assoc] using
      hasSubL_middle "[node updated] old resource version: ".data
        o.resourceVersion.data
        ("\tnew resource version: ".data ++ n.resourceVersion.data)
  · unfold updatedLogLine
    simpa using strContainsSub_append_right
      ("[node updated] old resource version: " ++ o.resourceVersion ++
        "\tnew resource version: ") n.resourceVersion
  · exact strContainsSub_append_right _ _

/-- The observable steps of main (src/main.go lines 67-106). -/
inductive MainAction where
  | loadUserConfig
  | buildClientset
  | createInformerFactory
  | registerAddHandler
  | registerUpdateHandler
  | registerDeleteHandler
  | startInformer
  | runController
deriving DecidableEq, Repr

/-- Order of main (src/main.go): kubeconfig and clientset are built, the
shared informer factory is created (line 88), newController registers the
three event handlers (line 90, via lines 35-49), the informer factory is
started (line 102), then the controller runs (line 104). -/
def mainTrace : List MainAction :=
  [.loadUserConfig, .buildClientset, .createInformerFactory,
   .registerAddHandler, .registerUpdateHandler, .registerDeleteHandler,
   .startInformer, .runController]

/-- The three informer event handlers. -/
inductive HandlerKind where
  | addedH | updatedH | deletedH
deriving DecidableEq, Repr

/-- The main-trace action that registers a given handler. -/
def registerActionOf : HandlerKind → MainAction
  | .addedH => .registerAddHandler
  | .updatedH => .registerUpdateHandler
  | .deletedH => .registerDeleteHandler

/-- Whether the handler's registration appears strictly before the informer
start in main's trace. -/
def registeredBeforeStart (h : HandlerKind) : Bool :=
  (mainTrace.takeWhile (fun a => !(a == MainAction.startInformer))).contains
    (registerActionOf h)

/-- Modelled from the spec: under the at-least-once delivery model, a
handler misses events dispatched after start exactly when it was not
registered before the informer started. -/
def missesEventsAfterStart (h : HandlerKind) : Bool := !(registeredBeforeStart h)

/-- C9: in this program all three event handlers are registered before the
informer is started, so under the at-least-once delivery model none of them
misses an event dispatched after start; and the informer start is indeed
part of main's trace. -/
theorem handlers_registered_before_start (h : HandlerKind) :
    registeredBeforeStart h = true ∧ missesEventsAfterStart h = false ∧
    MainAction.startInformer ∈ mainTrace := by
  cases h <;> exact ⟨by decide, by decide, by decide⟩

/-- An event payload as the dispatch interface allows it: a node object, a
deleted-final-state-unknown tombstone, or some other object. -/
inductive Payload where
  | nodeObj (n : NodeRec)
  | tombstone (key : String) (lastState : Option NodeRec)
  | otherObj
deriving DecidableEq, Repr

/-- The Go type assertion obj.(*corev1.Node) (src/main.go lines 37, 41, 42
and 46): yields the node, or panics when the payload is not a node. -/
def castToNode : Payload → Except String NodeRec
  | .nodeObj n => Except.ok n
  | _ => Except.error "interface conversion: payload is not *v1.Node"

/-- The add handler (src/main.go lines 36-39): unchecked cast, then one log
line. -/
def addHandlerRun (obj : Payload) : Except String String :=
  match castToNode obj with
  | Except.ok n => Except.ok (addedLogLine n)
  | Except.error e => Except.error e

/-- The update handler (src/main.go lines 40-44): casts old then new, then
one log line. -/
def updateHandlerRun (oldObj newObj : Payload) : Except String String :=
  match castToNode oldObj with
  | Except.error e => Except.error e
  | Except.ok o =>
    match castToNode newObj with
    | Except.error e => Except.error e
    | Except.ok n => Except.ok (updatedLogLine o n)

/-- The delete handler (src/main.go lines 45-48): unchecked cast, then one
log line. -/
def deleteHandlerRun (obj : Payload) : Except String String :=
  match castToNode obj with
  | Except.ok n => Except.ok (deletedLogLine n)
  | Except.error e => Except.error e

/-- C10: each registered handler downcasts its payload unchecked — for every
dispatched payload that is not a node (for example a
deleted-final-state-unknown tombstone delivered to the delete handler) the
handler panics rather than handling or skipping the event, while on node
payloads it logs its one line; so the handlers are not total over the
payload type the dispatch interface allows. -/
theorem handlers_panic_on_non_node (p : Payload)
    (h : ∀ n, p ≠ Payload.nodeObj n) :
    (∃ e, addHandlerRun p = Except.error e) ∧
    (∃ e, deleteHandlerRun p = Except.error e) ∧
    (∀ q, ∃ e, updateHandlerRun p q = Except.error e) ∧
    (∀ n, addHandlerRun (Payload.nodeObj n) = Except.ok (addedLogLine n)) := by
  have hc : castToNode p =
      Except.error "interface conversion: payload is not *v1.Node" := by
    cases p with
    | nodeObj n => exact absurd rfl (h n)
    | tombstone k ls => rfl
    | otherObj => rfl
  refine ⟨⟨"interface conversion: payload is not *v1.Node", ?_⟩,
    ⟨"interface conversion: payload is not *v1.Node", ?_⟩,
    fun q => ⟨"interface conversion: payload is not *v1.Node", ?_⟩,
    fun n => rfl⟩
  · simp [addHandlerRun, hc]
  · simp [deleteHandlerRun, hc]
  · simp [updateHandlerRun, hc]

/-- Witness for C10: the delete handler panics on the concrete tombstone
payload for node-a. -/
theorem handlers_panic_on_non_node_witness :
    ∃ e, deleteHandlerRun (Payload.tombstone "node-a" (some ⟨"node-a", "v2"⟩)) =
      Except.error e :=
  (handlers_panic_on_non_node (Payload.tombstone "node-a" (some ⟨"node-a", "v2"⟩))
    (fun _ h => Payload.noConfusion h)).2.1
